import Mathlib

/-!
Shallow embedding of `src/best_stocks.py` (covered-call screener).

Modelling conventions:
* Python floats are modelled as `ℚ` (exact rationals).
* A date string `'%Y-%m-%d'` is modelled as its day index (an integer);
  `datetime.strptime(date, '%Y-%m-%d')` is midnight of that day, i.e. the
  instant `d * 86400` in seconds.  `datetime.now()` is an arbitrary instant
  `now : ℤ` in seconds.  Python's `timedelta.days` floors, so
  `(strptime d - now).days = (d * 86400 - now).fdiv 86400`.
* The market-data gateway (yfinance) is an explicit record of responses;
  a raised exception is `Except.error`, a successful response `Except.ok`.
* `pandas.DataFrame(rows)` for an empty `rows` has no columns, so a
  subsequent `sort_values(by=col)` raises `KeyError(col)`; the two
  DataFrame pipelines are therefore modelled as `Except String _`,
  returning `.error` exactly when the row list is empty.
* `DataFrame.sort_values(by=k, ascending=False)` (default `kind='quicksort'`)
  computes an ascending argsort of the key and then reverses the indexer
  (`pandas.core.sorting.nargsort`: `indexer = indexer[::-1]`); numpy's
  quicksort is an introsort that runs insertion sort on small arrays, so the
  ascending argsort keeps tied keys in row order and the descending result
  presents tied rows in reversed row order.  The model is therefore a stable
  ascending `List.insertionSort` followed by `List.reverse`.
  `drop_duplicates(subset=['Symbol'], keep='first')` keeps the first
  row per symbol.
* Python's `round(x, 2)` (banker's rounding) is `round2`: round half to even
  at two decimal places.
-/

namespace BestStocks

abbrev Symbol := String

instance {ε : Type} {α : Type} [DecidableEq ε] [DecidableEq α] :
    DecidableEq (Except ε α) := fun a b =>
  match a, b with
  | .error x, .error y =>
    if h : x = y then .isTrue (by rw [h]) else .isFalse (by simp [h])
  | .ok x, .ok y =>
    if h : x = y then .isTrue (by rw [h]) else .isFalse (by simp [h])
  | .error _, .ok _ => .isFalse (by simp)
  | .ok _, .error _ => .isFalse (by simp)

/-- Round a rational to the nearest integer, ties to even (Python `round`). -/
def roundHalfEven (q : ℚ) : ℤ :=
  let f : ℤ := ⌊q⌋
  let r : ℚ := q - f
  if r < 1/2 then f
  else if 1/2 < r then f + 1
  else if Even f then f else f + 1

/-- Python `round(x, 2)`: round to two decimal places, ties to even. -/
def round2 (q : ℚ) : ℚ := (roundHalfEven (q * 100) : ℚ) / 100

/-! ## `get_market_caps` (lines 19–32) -/

/-- One element of the `companies` list built by `get_market_caps`:
the dict `{'Symbol': symbol, 'Market Cap': market_cap}`. -/
structure CapEntry where
  symbol : Symbol
  marketCap : ℤ
deriving DecidableEq, Repr

/-- A market-cap fetch response: `.error` models a raised exception,
`.ok none` models `info` lacking the `'marketCap'` key (so
`info.get('marketCap', 0)` yields the falsy `0`), `.ok (some c)` a present
value `c`. -/
abbrev CapFetch := Symbol → Except String (Option ℤ)

/-- The `companies` accumulation loop of `get_market_caps` (lines 22–30):
a symbol is appended exactly when its fetch succeeds and
`if market_cap:` holds, i.e. the value is present and nonzero
(Python truthiness of an int). -/
def collectCaps (fetch : CapFetch) : List Symbol → List CapEntry
  | [] => []
  | s :: rest =>
    match fetch s with
    | .error _ => collectCaps fetch rest
    | .ok none => collectCaps fetch rest
    | .ok (some c) =>
      if c ≠ 0 then ⟨s, c⟩ :: collectCaps fetch rest else collectCaps fetch rest

/-- Row order of the output of `sort_values(by='Market Cap',
ascending=False)`: `a` precedes `b` only when `a`'s cap is at least
`b`'s. -/
def capGE (a b : CapEntry) : Prop := b.marketCap ≤ a.marketCap

instance : DecidableRel capGE := fun a b =>
  inferInstanceAs (Decidable (b.marketCap ≤ a.marketCap))

instance : IsTotal CapEntry capGE := ⟨fun a b => le_total b.marketCap a.marketCap⟩

instance : IsTrans CapEntry capGE := ⟨fun _ _ _ h1 h2 => le_trans h2 h1⟩

/-- Key order of the ascending argsort that `sort_values` computes before
reversing the indexer for `ascending=False`. -/
def capLE (a b : CapEntry) : Prop := a.marketCap ≤ b.marketCap

instance : DecidableRel capLE := fun a b =>
  inferInstanceAs (Decidable (a.marketCap ≤ b.marketCap))

instance : IsTotal CapEntry capLE := ⟨fun a b => le_total a.marketCap b.marketCap⟩

instance : IsTrans CapEntry capLE := ⟨fun _ _ _ h1 h2 => le_trans h1 h2⟩

/-- The ranked, truncated entry list: `companies_df.sort_values(by='Market
Cap', ascending=False)` (ascending argsort, indexer reversed) followed by
`[:500]` on the symbol column. -/
def rankedCaps (fetch : CapFetch) (symbols : List Symbol) : List CapEntry :=
  (((collectCaps fetch symbols).insertionSort capLE).reverse).take 500

/-- Function `get_market_caps` (lines 19–32).  When the `companies` list is empty,
`pd.DataFrame(companies)` has no `'Market Cap'` column and
`sort_values(by='Market Cap', ...)` raises `KeyError`; this is the
`.error` branch. -/
def get_market_caps (fetch : CapFetch) (symbols : List Symbol) :
    Except String (List Symbol) :=
  if (collectCaps fetch symbols).isEmpty then .error "KeyError: Market Cap"
  else .ok ((rankedCaps fetch symbols).map (·.symbol))

/-! ## `get_covered_calls` (lines 34–97) -/

/-- One row of an option chain: the `'strike'` and `'bid'` columns used by
the filter. -/
structure CallRow where
  strike : ℚ
  bid : ℚ
deriving DecidableEq, Repr

/-- The market-data gateway responses consumed by `get_covered_calls`:
`history` is the closing price from `stock.history(period="1d")`
(`.ok none` = empty history, which line 43 turns into `None`);
`options` is `stock.options` as a list of day indices;
`chain` is `stock.option_chain(date).calls`. -/
structure Gateway where
  history : Symbol → Except String (Option ℚ)
  options : Symbol → Except String (List ℤ)
  chain : Symbol → ℤ → Except String (List CallRow)

/-- One output row appended to `results` (lines 82–89). `strike` and `bid`
are stored unrounded; the premium ratio is stored as a percentage rounded
to 2 decimals and the current price rounded to 2 decimals. -/
structure Opportunity where
  symbol : Symbol
  expiration : ℤ
  strike : ℚ
  bid : ℚ
  premiumRatioPct : ℚ
  currentPrice : ℚ
deriving DecidableEq, Repr

/-- The expiration filter of lines 54–57: keep date `d` iff
`(strptime(d) - now).days <= max_expiration_days`, where `.days` is the
floored day count of the timedelta. -/
def keepDate (now : ℤ) (maxExpirationDays : ℤ) (d : ℤ) : Bool :=
  (d * 86400 - now).fdiv 86400 ≤ maxExpirationDays

/-- The two chained contract filters of lines 66–78 applied to a call
chain, given current price `p` and threshold `minR`. -/
def filterChain (p minR : ℚ) (rows : List CallRow) : List CallRow :=
  let f1 := rows.filter fun r =>
    decide (0 < r.bid) && decide (p ≤ r.strike) && decide (r.strike ≤ p * 1.2)
  f1.filter fun r =>
    decide (minR ≤ r.bid / p) && decide (r.bid / p ≤ 1)

/-- Record construction `results.append({...})` of lines 82–89. -/
def mkOpportunity (s : Symbol) (d : ℤ) (p : ℚ) (r : CallRow) : Opportunity :=
  ⟨s, d, r.strike, r.bid, round2 (r.bid / p * 100), round2 p⟩

/-- The body of the per-expiration loop (lines 62–92): a failed chain fetch
contributes nothing (the `except` at lines 91–92). -/
def scanDate (gw : Gateway) (minR : ℚ) (p : ℚ) (s : Symbol) (d : ℤ) :
    List Opportunity :=
  match gw.chain s d with
  | .error _ => []
  | .ok rows => (filterChain p minR rows).map (mkOpportunity s d p)

/-- The body of the per-symbol loop (lines 37–92): price fetch failure,
empty history, non-positive price, or expirations fetch failure each skip
the symbol with a diagnostic. -/
def scanSymbol (gw : Gateway) (now : ℤ) (minR : ℚ) (maxDays : ℤ)
    (s : Symbol) : List Opportunity :=
  match gw.history s with
  | .error _ => []
  | .ok none => []
  | .ok (some p) =>
    if p ≤ 0 then []
    else
      match gw.options s with
      | .error _ => []
      | .ok dates =>
        (dates.filter (keepDate now maxDays)).flatMap (scanDate gw minR p s)

/-- The full `results` list accumulated by the double loop (lines 35–92). -/
def scanRaw (gw : Gateway) (now : ℤ) (minR : ℚ) (maxDays : ℤ)
    (symbols : List Symbol) : List Opportunity :=
  symbols.flatMap (scanSymbol gw now minR maxDays)

/-- Row order of the output of `sort_values(by='Premium Ratio (%)',
ascending=False)`: a row precedes another only when its ratio is at least
as large. -/
def ratioGE (a b : Opportunity) : Prop := b.premiumRatioPct ≤ a.premiumRatioPct

instance : DecidableRel ratioGE := fun a b =>
  inferInstanceAs (Decidable (b.premiumRatioPct ≤ a.premiumRatioPct))

instance : IsTotal Opportunity ratioGE :=
  ⟨fun a b => le_total b.premiumRatioPct a.premiumRatioPct⟩

instance : IsTrans Opportunity ratioGE := ⟨fun _ _ _ h1 h2 => le_trans h2 h1⟩

/-- Key order of the ascending argsort that `sort_values` computes before
reversing the indexer for `ascending=False`. -/
def ratioLE (a b : Opportunity) : Prop := a.premiumRatioPct ≤ b.premiumRatioPct

instance : DecidableRel ratioLE := fun a b =>
  inferInstanceAs (Decidable (a.premiumRatioPct ≤ b.premiumRatioPct))

instance : IsTotal Opportunity ratioLE :=
  ⟨fun a b => le_total a.premiumRatioPct b.premiumRatioPct⟩

instance : IsTrans Opportunity ratioLE := ⟨fun _ _ _ h1 h2 => le_trans h1 h2⟩

/-- Pandas `drop_duplicates(subset=['Symbol'], keep='first')` (line 96): keep a row
iff its symbol has not been seen in an earlier row. -/
def dedupFirstAux (seen : List Symbol) : List Opportunity → List Opportunity
  | [] => []
  | o :: rest =>
    if o.symbol ∈ seen then dedupFirstAux seen rest
    else o :: dedupFirstAux (o.symbol :: seen) rest

/-- Pandas `drop_duplicates(subset=['Symbol'], keep='first')` starting from no
symbols seen. -/
def dedupFirst (l : List Opportunity) : List Opportunity := dedupFirstAux [] l

/-- The aggregation step (lines 94–97): sort by premium ratio descending
(`sort_values(ascending=False)`: ascending argsort, indexer reversed, so
tied rows come out in reversed row order), then keep the first row per
symbol.  When `results` is empty, `pd.DataFrame(results)` has no
`'Premium Ratio (%)'` column and `sort_values` raises `KeyError`; this is
the `.error` branch. -/
def aggregate (results : List Opportunity) : Except String (List Opportunity) :=
  if results.isEmpty then .error "KeyError: Premium Ratio"
  else .ok (dedupFirst ((results.insertionSort ratioLE).reverse))

/-- Function `get_covered_calls` (lines 34–97): the raw scan followed by the
aggregation step. -/
def get_covered_calls (gw : Gateway) (now : ℤ) (symbols : List Symbol)
    (minR : ℚ) (maxDays : ℤ) : Except String (List Opportunity) :=
  aggregate (scanRaw gw now minR maxDays symbols)

/-! ## Concrete instances used in the theorems below -/

/-- A cap fetch where every symbol lacks the `'marketCap'` key. -/
def capFetchUnknown : CapFetch := fun _ => .ok none

/-- A cap fetch reporting a (pathological) negative market cap for every
symbol. -/
def capFetchNeg : CapFetch := fun _ => .ok (some (-1))

/-- A cap fetch with cap 5 for `"A"` and cap 10 for every other symbol. -/
def capFetchTwo : CapFetch :=
  fun s => if s = "A" then .ok (some 5) else .ok (some 10)

/-- A gateway where `"XYZ"` has no retrievable price and every other symbol
has price 100, one expiration on day 4, and one qualifying contract. -/
def gwMixed : Gateway :=
  { history := fun s => if s = "XYZ" then .error "no price data" else .ok (some 100)
    options := fun _ => .ok [4]
    chain := fun _ _ => .ok [⟨105, 4⟩] }

/-- A gateway with price 100, a single expiration on day 9, and one
qualifying contract. -/
def gwDay9 : Gateway :=
  { history := fun _ => .ok (some 100)
    options := fun _ => .ok [9]
    chain := fun _ _ => .ok [⟨105, 4⟩] }

/-- The opportunity `gwMixed` yields for `"ABC"` at midnight of day 0. -/
def oppABC : Opportunity := ⟨"ABC", 4, 105, 4, 4, 100⟩

/-- The opportunity `gwDay9` yields for `"A"` when the scan runs on day 5. -/
def oppA : Opportunity := ⟨"A", 9, 105, 4, 4, 100⟩

/-- An opportunity for `"ABC"` with premium ratio 4%. -/
def opp4 : Opportunity := ⟨"ABC", 4, 104, 4, 4, 100⟩

/-- An opportunity for `"ABC"` with premium ratio 6%. -/
def opp6 : Opportunity := ⟨"ABC", 4, 106, 6, 6, 100⟩

/-- An opportunity for symbol `"X"` with premium ratio 5%. -/
def oppX : Opportunity := ⟨"X", 4, 105, 5, 5, 100⟩

/-- An opportunity for symbol `"Y"`, tied with `oppX` at ratio 5%. -/
def oppY : Opportunity := ⟨"Y", 4, 105, 5, 5, 100⟩

/-- The calendar day containing the instant `now` (in seconds). -/
def calendarDay (now : ℤ) : ℤ := now.fdiv 86400

/-! ## Helper lemmas -/

/-- A contract row survives the two chained filters exactly when it is in
the chain and satisfies all five numeric conditions jointly. -/
theorem mem_filterChain (p minR : ℚ) (rows : List CallRow) (r : CallRow) :
    r ∈ filterChain p minR rows ↔
      r ∈ rows ∧ 0 < r.bid ∧ p ≤ r.strike ∧ r.strike ≤ p * 1.2 ∧
        minR ≤ r.bid / p ∧ r.bid / p ≤ 1 := by
  simp only [filterChain, List.mem_filter, Bool.and_eq_true, decide_eq_true_eq,
    and_assoc]

/-- Every entry collected by the market-cap loop records a successful fetch
of a nonzero cap for a symbol of the input list. -/
theorem mem_collectCaps (fetch : CapFetch) (l : List Symbol) (e : CapEntry)
    (he : e ∈ collectCaps fetch l) :
    e.symbol ∈ l ∧ fetch e.symbol = .ok (some e.marketCap) ∧ e.marketCap ≠ 0 := by
  induction l with
  | nil => simp [collectCaps] at he
  | cons s rest ih =>
    cases hfs : fetch s with
    | error msg =>
      simp only [collectCaps, hfs] at he
      obtain ⟨h1, h2⟩ := ih he
      exact ⟨List.mem_cons_of_mem _ h1, h2⟩
    | ok v =>
      cases v with
      | none =>
        simp only [collectCaps, hfs] at he
        obtain ⟨h1, h2⟩ := ih he
        exact ⟨List.mem_cons_of_mem _ h1, h2⟩
      | some c =>
        simp only [collectCaps, hfs] at he
        by_cases hc : c = 0
        · simp [hc] at he
          obtain ⟨h1, h2⟩ := ih he
          exact ⟨List.mem_cons_of_mem _ h1, h2⟩
        · simp only [ne_eq, hc, not_false_eq_true, if_true, List.mem_cons] at he
          rcases he with he | he
          · subst he
            exact ⟨List.mem_cons_self _ _, hfs, hc⟩
          · obtain ⟨h1, h2⟩ := ih he
            exact ⟨List.mem_cons_of_mem _ h1, h2⟩

/-- Deduplication returns a sublist of its input. -/
theorem dedupFirstAux_sublist (seen : List Symbol) (l : List Opportunity) :
    (dedupFirstAux seen l).Sublist l := by
  induction l generalizing seen with
  | nil => simp [dedupFirstAux]
  | cons o rest ih =>
    simp only [dedupFirstAux]
    by_cases h : o.symbol ∈ seen
    · simp only [if_pos h]
      exact (ih seen).cons o
    · simp only [if_neg h]
      exact (ih (o.symbol :: seen)).cons₂ o

/-- Deduplication yields rows with pairwise distinct symbols, none of them
already seen. -/
theorem dedupFirstAux_nodup (l : List Opportunity) (seen : List Symbol) :
    ((dedupFirstAux seen l).map (fun o => o.symbol)).Nodup ∧
      ∀ o ∈ dedupFirstAux seen l, o.symbol ∉ seen := by
  induction l generalizing seen with
  | nil => simp [dedupFirstAux]
  | cons o rest ih =>
    simp only [dedupFirstAux]
    by_cases h : o.symbol ∈ seen
    · simp only [if_pos h]
      exact ih seen
    · simp only [if_neg h]
      obtain ⟨ihn, ihs⟩ := ih (o.symbol :: seen)
      refine ⟨?_, ?_⟩
      · simp only [List.map_cons, List.nodup_cons]
        refine ⟨?_, ihn⟩
        intro hmem
        obtain ⟨q, hq, hqs⟩ := List.mem_map.mp hmem
        exact (ihs q hq) (by rw [hqs]; exact List.mem_cons_self _ _)
      · intro q hq
        rcases List.mem_cons.mp hq with rfl | hq2
        · exact h
        · intro hqseen
          exact (ihs q hq2) (List.mem_cons_of_mem _ hqseen)

/-- In a list sorted by non-increasing premium ratio, every row whose symbol
is not yet seen has a representative with the same symbol and a ratio at
least as large among the deduplicated rows. -/
theorem dedupFirstAux_max :
    ∀ (l : List Opportunity) (seen : List Symbol), l.Pairwise ratioGE →
      ∀ o ∈ l, o.symbol ∉ seen →
      ∃ q ∈ dedupFirstAux seen l, q.symbol = o.symbol ∧
        o.premiumRatioPct ≤ q.premiumRatioPct
  | [], _, _, o, ho, _ => absurd ho (List.not_mem_nil o)
  | x :: rest, seen, hl, o, ho, hs => by
    obtain ⟨hx, hrest⟩ := List.pairwise_cons.mp hl
    simp only [dedupFirstAux]
    by_cases h : x.symbol ∈ seen
    · simp only [if_pos h]
      rcases List.mem_cons.mp ho with rfl | ho2
      · exact absurd h hs
      · exact dedupFirstAux_max rest seen hrest o ho2 hs
    · simp only [if_neg h]
      rcases List.mem_cons.mp ho with rfl | ho2
      · exact ⟨o, List.mem_cons_self _ _, rfl, le_refl _⟩
      · by_cases hsym : o.symbol = x.symbol
        · exact ⟨x, List.mem_cons_self _ _, hsym.symm, hx o ho2⟩
        · obtain ⟨q, hq, hq1, hq2⟩ :=
            dedupFirstAux_max rest (x.symbol :: seen) hrest o ho2 (by
              intro hmem
              rcases List.mem_cons.mp hmem with hh | hh
              · exact hsym hh
              · exact hs hh)
          exact ⟨q, List.mem_cons_of_mem _ hq, hq1, hq2⟩

/-- Deduplicating a list whose symbols are already pairwise distinct and
disjoint from `seen` changes nothing. -/
theorem dedupFirstAux_eq_self :
    ∀ (l : List Opportunity) (seen : List Symbol),
      (l.map (fun o => o.symbol)).Nodup → (∀ o ∈ l, o.symbol ∉ seen) →
      dedupFirstAux seen l = l
  | [], _, _, _ => rfl
  | x :: rest, seen, hn, hd => by
    have hn2 : x.symbol ∉ rest.map (fun o => o.symbol) ∧
        (rest.map (fun o => o.symbol)).Nodup := by
      rw [List.map_cons, List.nodup_cons] at hn
      exact hn
    simp only [dedupFirstAux, if_neg (hd x (List.mem_cons_self _ _))]
    congr 1
    apply dedupFirstAux_eq_self rest (x.symbol :: seen) hn2.2
    intro o ho hmem
    rcases List.mem_cons.mp hmem with hh | hh
    · exact hn2.1 (by rw [← hh]; exact List.mem_map_of_mem _ ho)
    · exact hd o (List.mem_cons_of_mem _ ho) hh

/-- Deduplication of a nonempty list is nonempty. -/
theorem dedupFirst_isEmpty (l : List Opportunity) :
    (dedupFirst l).isEmpty = l.isEmpty := by
  cases l with
  | nil => rfl
  | cons x t => simp [dedupFirst, dedupFirstAux]

/-- Inserting an element that is below no element of the list appends it. -/
theorem orderedInsert_eq_append {α : Type} (r : α → α → Prop) [DecidableRel r]
    (x : α) (l : List α) (h : ∀ y ∈ l, ¬r x y) :
    l.orderedInsert r x = l ++ [x] := by
  induction l with
  | nil => rfl
  | cons y t ih =>
    simp only [List.orderedInsert, if_neg (h y (List.mem_cons_self _ _))]
    rw [ih fun z hz => h z (List.mem_cons_of_mem _ hz)]
    rfl

/-- The ascending sort of a strictly descending list is its reversal. -/
theorem insertionSort_strict_desc (l : List Opportunity)
    (h : l.Pairwise (fun a b => b.premiumRatioPct < a.premiumRatioPct)) :
    l.insertionSort ratioLE = l.reverse := by
  induction l with
  | nil => rfl
  | cons a t ih =>
    obtain ⟨ha, ht⟩ := List.pairwise_cons.mp h
    simp only [List.insertionSort]
    rw [ih ht, orderedInsert_eq_append ratioLE a t.reverse
      (fun y hy => not_le.mpr (ha y (List.mem_reverse.mp hy))),
      List.reverse_cons]

/-! ## Claim theorems -/

/-- C1: the aggregation step of `get_covered_calls` (lines 94–97) does not
return an empty result on empty input; `pd.DataFrame([])` has no
`'Premium Ratio (%)'` column, so `sort_values` raises `KeyError`.  This
theorem evaluates the aggregation at the failing input (the empty
opportunity list). -/
theorem C1_aggregate_empty_raises :
    aggregate [] = .error "KeyError: Premium Ratio" := rfl

/-- C2: when no symbol has a usable market capitalization the `companies`
list is empty, `pd.DataFrame(companies)` has no `'Market Cap'` column, and
`sort_values` raises `KeyError` instead of returning an empty sequence.
This theorem evaluates `get_market_caps` at the failing input. -/
theorem C2_all_caps_unknown_raises :
    get_market_caps capFetchUnknown ["A", "B"] = .error "KeyError: Market Cap" :=
  rfl

unseal Rat.mul Rat.inv Rat.add Rat.sub Rat.ofScientific in
/-- C3: a per-symbol fetch error removes exactly that symbol — `"XYZ"`
contributes nothing while `"ABC"`'s opportunity is still returned — but
when every symbol fails, the final `sort_values` on the empty result list
raises `KeyError`, so the scan does not always complete.  The three
conjuncts evaluate the code on the isolation scenario and on the failing
input. -/
theorem C3_isolation_and_empty_crash :
    get_covered_calls gwMixed 0 ["XYZ", "ABC"] (3/100) 8 = .ok [oppABC] ∧
      scanSymbol gwMixed 0 (3/100) 8 "XYZ" = [] ∧
      get_covered_calls gwMixed 0 ["XYZ"] (3/100) 8 =
        .error "KeyError: Premium Ratio" :=
  ⟨by decide, rfl, rfl⟩

/-- C4 counterexample: at one second past midnight of day 0
(`now = 1`), the expiration on day 9 is 9 calendar days away, one more
than `maxExpirationDays = 8`, yet the filter keeps it, because Python's
`timedelta.days` floors the fractional day difference down to 8. -/
theorem C4_counterexample :
    keepDate 1 8 9 = true ∧ 9 - calendarDay 1 = 9 ∧
      ¬((9 : ℤ) - calendarDay 1 ≤ 8) := by decide

/-- C4 amended: when the scan runs strictly after midnight
(`now = T * 86400 + t` with `0 < t < 86400`), an expiration date `d` is
kept exactly when it is at most `maxExpirationDays + 1` calendar days
away; in particular past dates are kept. -/
theorem C4_expiration_window_amended (T t d maxDays : ℤ)
    (h0 : 0 < t) (h1 : t < 86400) :
    keepDate (T * 86400 + t) maxDays d = true ↔ d - T ≤ maxDays + 1 := by
  unfold keepDate
  rw [decide_eq_true_eq, Int.fdiv_eq_ediv _ (by omega)]
  omega

/-- Witness for the amended C4 boundary: one second past midnight of day 0
with `maxExpirationDays = 8`, day 9 is kept. -/
theorem C4_expiration_window_witness : keepDate (0 * 86400 + 1) 8 9 = true :=
  (C4_expiration_window_amended 0 1 9 8 (by decide) (by decide)).mpr (by decide)

/-- C5 counterexample: the truthiness test `if market_cap:` keeps a
negative capitalization, so the output of `get_market_caps` can contain a
symbol with non-positive capitalization. -/
theorem C5_counterexample :
    get_market_caps capFetchNeg ["A"] = .ok ["A"] ∧
      capFetchNeg "A" = .ok (some (-1)) ∧ ¬(0 < (-1 : ℤ)) :=
  ⟨rfl, rfl, by decide⟩

/-- C5 amended: whenever `get_market_caps` returns a list, that list has at
most 500 symbols, all drawn from the input, listed in non-increasing order
of their fetched capitalizations, and every listed symbol has a known
nonzero (but possibly negative) capitalization. -/
theorem C5_rank_amended (fetch : CapFetch) (symbols : List Symbol)
    (r : List Symbol) (h : get_market_caps fetch symbols = .ok r) :
    r.length ≤ 500 ∧ (∀ s ∈ r, s ∈ symbols) ∧
      (rankedCaps fetch symbols).Pairwise capGE ∧
      r = (rankedCaps fetch symbols).map (fun e => e.symbol) ∧
      ∀ e ∈ rankedCaps fetch symbols,
        fetch e.symbol = .ok (some e.marketCap) ∧ e.marketCap ≠ 0 := by
  unfold get_market_caps at h
  by_cases hc : (collectCaps fetch symbols).isEmpty
  · rw [if_pos hc] at h
    exact absurd h (by simp)
  · rw [if_neg hc] at h
    simp only [Except.ok.injEq] at h
    subst h
    have hmem : ∀ e ∈ rankedCaps fetch symbols, e ∈ collectCaps fetch symbols := by
      intro e he
      exact (List.mem_insertionSort capLE).mp
        (List.mem_reverse.mp ((List.take_sublist _ _).subset he))
    refine ⟨?_, ?_, ?_, rfl, ?_⟩
    · rw [List.length_map]
      unfold rankedCaps
      rw [List.length_take]
      exact min_le_left _ _
    · intro s hs
      obtain ⟨e, he, rfl⟩ := List.mem_map.mp hs
      exact (mem_collectCaps fetch symbols e (hmem e he)).1
    · exact List.Pairwise.sublist (List.take_sublist _ _)
        (List.pairwise_reverse.mpr (List.sorted_insertionSort capLE _))
    · intro e he
      exact (mem_collectCaps fetch symbols e (hmem e he)).2

/-- Witness for the amended C5 ranking guarantee, at a two-symbol fetch
where `"B"` has the larger capitalization. -/
theorem C5_rank_witness :
    (["B", "A"] : List Symbol).length ≤ 500 ∧
      (∀ s ∈ (["B", "A"] : List Symbol), s ∈ (["A", "B"] : List Symbol)) ∧
      (rankedCaps capFetchTwo ["A", "B"]).Pairwise capGE ∧
      (["B", "A"] : List Symbol) =
        (rankedCaps capFetchTwo ["A", "B"]).map (fun e => e.symbol) ∧
      ∀ e ∈ rankedCaps capFetchTwo ["A", "B"],
        capFetchTwo e.symbol = .ok (some e.marketCap) ∧ e.marketCap ≠ 0 :=
  C5_rank_amended capFetchTwo ["A", "B"] ["B", "A"] rfl

/-- C6: whenever the aggregation step returns a table, that table has at
most one row per distinct symbol, is sorted by premium ratio descending,
contains only input rows, and for every input row there is a retained row
with the same symbol and a premium ratio at least as large (so each
symbol's retained row attains the maximum ratio for that symbol). -/
theorem C6_aggregate_best_per_symbol (O r : List Opportunity)
    (h : aggregate O = .ok r) :
    (r.map (fun o => o.symbol)).Nodup ∧ r.Pairwise ratioGE ∧
      (∀ o ∈ r, o ∈ O) ∧
      ∀ o ∈ O, ∃ q ∈ r, q.symbol = o.symbol ∧
        o.premiumRatioPct ≤ q.premiumRatioPct := by
  unfold aggregate at h
  by_cases hO : O.isEmpty
  · rw [if_pos hO] at h
    exact absurd h (by simp)
  · rw [if_neg hO] at h
    simp only [Except.ok.injEq] at h
    subst h
    have hsorted : ((O.insertionSort ratioLE).reverse).Pairwise ratioGE :=
      List.pairwise_reverse.mpr (List.sorted_insertionSort ratioLE O)
    refine ⟨(dedupFirstAux_nodup (O.insertionSort ratioLE).reverse []).1, ?_, ?_, ?_⟩
    · exact List.Pairwise.sublist
        (dedupFirstAux_sublist [] (O.insertionSort ratioLE).reverse) hsorted
    · intro o ho
      exact (List.mem_insertionSort ratioLE).mp (List.mem_reverse.mp
        ((dedupFirstAux_sublist [] (O.insertionSort ratioLE).reverse).subset ho))
    · intro o ho
      exact dedupFirstAux_max (O.insertionSort ratioLE).reverse [] hsorted o
        (List.mem_reverse.mpr ((List.mem_insertionSort ratioLE).mpr ho))
        (List.not_mem_nil _)

/-- Witness for C6 at the two-opportunity scenario: ratios 4% and 6% for
the same symbol, with only the 6% row retained. -/
theorem C6_aggregate_witness :
    (([opp6] : List Opportunity).map (fun o => o.symbol)).Nodup ∧
      ([opp6] : List Opportunity).Pairwise ratioGE ∧
      (∀ o ∈ ([opp6] : List Opportunity), o ∈ [opp4, opp6]) ∧
      ∀ o ∈ [opp4, opp6], ∃ q ∈ ([opp6] : List Opportunity),
        q.symbol = o.symbol ∧ o.premiumRatioPct ≤ q.premiumRatioPct :=
  C6_aggregate_best_per_symbol [opp4, opp6] [opp6] (by decide)

/-- C7: a call contract survives the filtering of lines 66–78 exactly when
its bid is positive, its strike lies between the current price and 1.2
times the current price inclusive, and its premium ratio lies between the
user threshold and 1 inclusive. -/
theorem C7_contract_filter (p minR : ℚ) (rows : List CallRow) (r : CallRow) :
    r ∈ filterChain p minR rows ↔
      r ∈ rows ∧ 0 < r.bid ∧ p ≤ r.strike ∧ r.strike ≤ p * 1.2 ∧
        minR ≤ r.bid / p ∧ r.bid / p ≤ 1 :=
  mem_filterChain p minR rows r

/-- C8 counterexample: two rows for distinct symbols tied at ratio 5% —
the descending sort presents tied rows in reversed row order, so
aggregating the aggregated table swaps them back and exact idempotence
fails. -/
theorem C8_counterexample :
    aggregate [oppX, oppY] = .ok [oppY, oppX] ∧
      aggregate [oppY, oppX] = .ok [oppX, oppY] ∧
      ([oppY, oppX] : List Opportunity) ≠ [oppX, oppY] :=
  ⟨by decide, by decide, by decide⟩

/-- C8 amended: re-aggregating a successfully aggregated table succeeds
and returns a table with exactly the same rows (a permutation of it);
rows tied on the rounded premium ratio may swap order, and whenever no
two retained rows have equal premium ratio the table is returned exactly
unchanged. -/
theorem C8_aggregate_idempotent_amended (O r : List Opportunity)
    (h : aggregate O = .ok r) :
    ∃ r2, aggregate r = .ok r2 ∧ r2.Perm r ∧
      ((r.Pairwise fun a b => a.premiumRatioPct ≠ b.premiumRatioPct) →
        r2 = r) := by
  unfold aggregate at h ⊢
  by_cases hO : O.isEmpty
  · rw [if_pos hO] at h
    exact absurd h (by simp)
  · rw [if_neg hO] at h
    simp only [Except.ok.injEq] at h
    subst h
    have hsorted : ((O.insertionSort ratioLE).reverse).Pairwise ratioGE :=
      List.pairwise_reverse.mpr (List.sorted_insertionSort ratioLE O)
    have hrsorted :
        (dedupFirst (O.insertionSort ratioLE).reverse).Pairwise ratioGE :=
      List.Pairwise.sublist
        (dedupFirstAux_sublist [] (O.insertionSort ratioLE).reverse) hsorted
    have hrnodup :=
      (dedupFirstAux_nodup (O.insertionSort ratioLE).reverse []).1
    have hne :
        ¬(dedupFirst (O.insertionSort ratioLE).reverse).isEmpty = true := by
      rw [dedupFirst_isEmpty]
      intro hLe
      rw [List.isEmpty_iff] at hLe
      have hnil : O.insertionSort ratioLE = [] := by
        rw [← List.reverse_reverse (O.insertionSort ratioLE), hLe,
          List.reverse_nil]
      have hperm := List.perm_insertionSort ratioLE O
      rw [hnil] at hperm
      rw [List.isEmpty_iff] at hO
      exact hO hperm.symm.eq_nil
    have hMperm :
        (((dedupFirst (O.insertionSort ratioLE).reverse).insertionSort
            ratioLE).reverse).Perm
          (dedupFirst (O.insertionSort ratioLE).reverse) :=
      (List.reverse_perm _).trans (List.perm_insertionSort ratioLE _)
    have hMnodup :
        ((((dedupFirst (O.insertionSort ratioLE).reverse).insertionSort
            ratioLE).reverse).map (fun o => o.symbol)).Nodup :=
      ((hMperm.map (fun o => o.symbol)).nodup_iff).mpr hrnodup
    refine ⟨((dedupFirst (O.insertionSort ratioLE).reverse).insertionSort
        ratioLE).reverse, ?_, hMperm, ?_⟩
    · rw [if_neg hne]
      exact congrArg Except.ok
        (dedupFirstAux_eq_self _ [] hMnodup (fun o _ => List.not_mem_nil _))
    · intro hdist
      have hstrict : (dedupFirst (O.insertionSort ratioLE).reverse).Pairwise
          (fun a b => b.premiumRatioPct < a.premiumRatioPct) :=
        (hrsorted.and hdist).imp
          (fun hx => lt_of_le_of_ne hx.1 (Ne.symm hx.2))
      rw [insertionSort_strict_desc _ hstrict, List.reverse_reverse]

/-- Witness for the amended C8: re-aggregating the aggregated
two-opportunity scenario returns the same single row, whose one-element
table trivially has pairwise-distinct ratios. -/
theorem C8_aggregate_idempotent_witness :
    ∃ r2, aggregate [opp6] = .ok r2 ∧ r2.Perm [opp6] ∧
      ((([opp6] : List Opportunity).Pairwise
          fun a b => a.premiumRatioPct ≠ b.premiumRatioPct) →
        r2 = [opp6]) :=
  C8_aggregate_idempotent_amended [opp4, opp6] [opp6] (by decide)

/-- C9: every record in the raw scan results was built from a contract that
passed all filters against the unrounded fetched price of its symbol —
positive bid, strike between the price and 1.2 times the price, premium
ratio between the threshold and 1 — while the record itself stores that
price and the ratio only in rounded form. -/
theorem C9_emitted_records_sound (gw : Gateway) (now : ℤ) (minR : ℚ)
    (maxDays : ℤ) (symbols : List Symbol) (o : Opportunity)
    (h : o ∈ scanRaw gw now minR maxDays symbols) :
    ∃ p : ℚ, gw.history o.symbol = .ok (some p) ∧ 0 < p ∧ 0 < o.bid ∧
      p ≤ o.strike ∧ o.strike ≤ p * 1.2 ∧ minR ≤ o.bid / p ∧ o.bid / p ≤ 1 ∧
      o.currentPrice = round2 p ∧
      o.premiumRatioPct = round2 (o.bid / p * 100) := by
  obtain ⟨s, hsmem, hos⟩ := List.mem_flatMap.mp h
  cases hh : gw.history s with
  | error e => simp [scanSymbol, hh] at hos
  | ok v =>
    cases v with
    | none => simp [scanSymbol, hh] at hos
    | some p =>
      by_cases hp : p ≤ 0
      · simp [scanSymbol, hh, hp] at hos
      · cases hopt : gw.options s with
        | error e => simp [scanSymbol, hh, hp, hopt] at hos
        | ok dates =>
          simp only [scanSymbol, hh, hp, if_false, hopt] at hos
          obtain ⟨d, hdmem, hod⟩ := List.mem_flatMap.mp hos
          cases hch : gw.chain s d with
          | error e => simp [scanDate, hch] at hod
          | ok rows =>
            simp only [scanDate, hch] at hod
            obtain ⟨rr, hrr, hmk⟩ := List.mem_map.mp hod
            obtain ⟨hrmem, hb, hs1, hs2, hr1, hr2⟩ :=
              (mem_filterChain p minR rows rr).mp hrr
            subst hmk
            exact ⟨p, hh, not_le.mp hp, hb, hs1, hs2, hr1, hr2, rfl, rfl⟩

unseal Rat.mul Rat.inv Rat.add Rat.sub Rat.ofScientific in
/-- Witness for C9: the single record produced by `gwDay9` on day 5
satisfies the soundness property. -/
theorem C9_emitted_witness :
    ∃ p : ℚ, gwDay9.history oppA.symbol = .ok (some p) ∧ 0 < p ∧
      0 < oppA.bid ∧ p ≤ oppA.strike ∧ oppA.strike ≤ p * 1.2 ∧
      (3/100 : ℚ) ≤ oppA.bid / p ∧ oppA.bid / p ≤ 1 ∧
      oppA.currentPrice = round2 p ∧
      oppA.premiumRatioPct = round2 (oppA.bid / p * 100) :=
  C9_emitted_records_sound gwDay9 432000 (3/100) 8 ["A"] oppA (by decide)

unseal Rat.mul Rat.inv Rat.add Rat.sub Rat.ofScientific in
/-- C10 counterexample: `get_covered_calls` reads the system clock, which
is not part of the thresholds or the gateway responses, so two runs with
identical thresholds and identical gateway responses but different clock
readings return different results: at midnight of day 0 the expiration on
day 9 is outside the 8-day window (and the empty result then raises
`KeyError`), while on day 5 it is inside and one opportunity is
returned. -/
theorem C10_counterexample :
    get_covered_calls gwDay9 0 ["A"] (3/100) 8 =
        .error "KeyError: Premium Ratio" ∧
      get_covered_calls gwDay9 432000 ["A"] (3/100) 8 = .ok [oppA] ∧
      get_covered_calls gwDay9 0 ["A"] (3/100) 8 ≠
        get_covered_calls gwDay9 432000 ["A"] (3/100) 8 :=
  ⟨by decide, by decide, by decide⟩

/-- C10 amended: the scan is deterministic once the clock reading is also
fixed — two runs with identical thresholds, identical current time, and
pointwise-identical gateway responses return identical tables, including
row order. -/
theorem C10_deterministic_amended (gw1 gw2 : Gateway) (now1 now2 : ℤ)
    (symbols : List Symbol) (minR1 minR2 : ℚ) (maxD1 maxD2 : ℤ)
    (hh : ∀ s, gw1.history s = gw2.history s)
    (ho : ∀ s, gw1.options s = gw2.options s)
    (hc : ∀ s d, gw1.chain s d = gw2.chain s d)
    (hnow : now1 = now2) (hminR : minR1 = minR2) (hmaxD : maxD1 = maxD2) :
    get_covered_calls gw1 now1 symbols minR1 maxD1 =
      get_covered_calls gw2 now2 symbols minR2 maxD2 := by
  subst hnow hminR hmaxD
  obtain ⟨f1, g1, k1⟩ := gw1
  obtain ⟨f2, g2, k2⟩ := gw2
  rw [show f1 = f2 from funext hh, show g1 = g2 from funext ho,
    show k1 = k2 from funext fun s => funext (hc s)]

/-- Witness for the amended C10 determinism at the concrete day-5 run. -/
theorem C10_deterministic_witness :
    get_covered_calls gwDay9 432000 ["A"] (3/100) 8 =
      get_covered_calls gwDay9 432000 ["A"] (3/100) 8 :=
  C10_deterministic_amended gwDay9 gwDay9 432000 432000 ["A"] (3/100) (3/100)
    8 8 (fun _ => rfl) (fun _ => rfl) (fun _ _ => rfl) rfl rfl rfl

end BestStocks
